import Mathlib

set_option maxRecDepth 8000

/-!
Verification development for the value normalization pipeline of the
config-rs repository (`src/format.rs`): root-table validation
(`extract_root_table`), the ambiguous intermediate model (`ParsedValue`
and its untagged deserialization probe), the secondary string and map
probes (`deserialize_parsed_string`, `deserialize_parsed_map`), and the
normalization pass (`from_parsed_value`).

Machine integers are modelled as `Int`/`Nat`; the code under verification
never computes with them, it only moves them between constructors, and the
serde integer visitors perform lossless range-checked conversions, which
are made explicit below.  `f64` payloads are likewise moved around
unchanged and never computed with, so they are modelled as an abstract
scalar carrying its bit pattern.
-/

/-- Abstract carrier for `f64` payloads: the pipeline transports floats
unchanged, and the only computation it ever applies to one is rendering
it as text (a mapping key's `to_string`), so a float is modelled by its
bit pattern together with that decimal text rendering. -/
structure F64 where
  bits : Nat
  text : String
deriving DecidableEq, BEq

/-- Modelled from the spec: `crate::map::Map` (`src/map.rs` is not among the
sources under verification).  Per the spec (section 3) it is an
insertion-ordered keyed table with string keys and unique keys; inserting an
existing key replaces that key's value in place, inserting a fresh key
appends it.  This matches the `IndexMap`-style `FromIterator`/`insert`
semantics the code relies on via `collect()`. -/
abbrev Map (α : Type) : Type := List (String × α)

/-- Insert one binding: replace the value in place when the key is present,
append the binding otherwise. -/
def Map.insertEntry {α : Type} : Map α → String → α → Map α
  | [], k, v => [(k, v)]
  | (k1, v1) :: rest, k, v =>
    if k1 = k then (k1, v) :: rest else (k1, v1) :: Map.insertEntry rest k v

/-- Insert a list of bindings left to right (the semantics of `collect()`
into the map type). -/
def Map.insertList {α : Type} (acc : Map α) : List (String × α) → Map α
  | [] => acc
  | (k, v) :: rest => Map.insertList (Map.insertEntry acc k v) rest

/-- Collect a key/value sequence into a map, duplicate keys resolved by
insertion (later value wins, first position kept). -/
def Map.fromList {α : Type} (l : List (String × α)) : Map α :=
  Map.insertList [] l

/-- Key membership test for the assoc-list map. -/
def Map.keyMem {α : Type} (k : String) : Map α → Bool
  | [] => false
  | (k1, _) :: rest => if k1 = k then true else Map.keyMem k rest

/-- All keys distinct. -/
def Map.keysNodup {α : Type} : Map α → Bool
  | [] => true
  | (k, _) :: rest => !(Map.keyMem k rest) && Map.keysNodup rest

mutual
/-- Mirror of `ValueKind` from `crate::value` (modelled from the spec,
section 3, since `src/value.rs` is not among the sources under
verification): a closed tagged union of Nil, Boolean, signed/unsigned 64-
and 128-bit integers, 64-bit float, string, insertion-ordered keyed table
and sequence. -/
inductive ValueKind where
  | Nil
  | Boolean (b : Bool)
  | I64 (n : Int)
  | I128 (n : Int)
  | U64 (n : Nat)
  | U128 (n : Nat)
  | Float (x : F64)
  | String (s : String)
  | Table (m : List (String × Value))
  | Array (xs : List Value)

/-- Mirror of `Value` from `crate::value` (modelled from the spec, section
3): a `ValueKind` paired with an optional origin identifier. -/
inductive Value where
  | mk (origin : Option String) (kind : ValueKind)
end

/-- The origin label of a `Value`. -/
def Value.origin : Value → Option String
  | Value.mk o _ => o

/-- The kind of a `Value`. -/
def Value.kind : Value → ValueKind
  | Value.mk _ k => k

/-- Mirror of `Value::new(origin, kind)`: attach an origin to a kind. -/
def Value.new (uri : Option String) (kind : ValueKind) : Value :=
  Value.mk uri kind

/-- Modelled from the spec: the payload of `crate::error::Unexpected`
(`src/error.rs` is not among the sources under verification), the typed
description of an offending kind used by the root-shape error; variant
names are those matched in `extract_root_table`. -/
inductive Unexpected where
  | Unit
  | Seq
  | Bool (b : Bool)
  | I64 (n : Int)
  | I128 (n : Int)
  | U64 (n : Nat)
  | U128 (n : Nat)
  | Float (x : F64)
  | Str (s : String)
deriving DecidableEq

/-- Modelled from the spec: the error built by
`ConfigError::invalid_root(uri, err)` — a typed "unexpected root shape"
error carrying the origin label and the offending kind description
(spec sections 4.4 and 7). -/
structure ConfigError where
  origin : Option String
  unexpected : Unexpected
deriving DecidableEq

/-- Mirror of `extract_root_table` (`src/format.rs` lines 30-48): a `Table`
root succeeds with the unwrapped map, every other kind fails with the
invalid-root error naming that kind and carrying the origin label. -/
def extract_root_table (uri : Option String) (value : Value) :
    Except ConfigError (Map Value) :=
  match Value.kind value with
  | ValueKind.Table m => Except.ok m
  | ValueKind.Nil => Except.error ⟨uri, Unexpected.Unit⟩
  | ValueKind.Array _ => Except.error ⟨uri, Unexpected.Seq⟩
  | ValueKind.Boolean b => Except.error ⟨uri, Unexpected.Bool b⟩
  | ValueKind.I64 n => Except.error ⟨uri, Unexpected.I64 n⟩
  | ValueKind.I128 n => Except.error ⟨uri, Unexpected.I128 n⟩
  | ValueKind.U64 n => Except.error ⟨uri, Unexpected.U64 n⟩
  | ValueKind.U128 n => Except.error ⟨uri, Unexpected.U128 n⟩
  | ValueKind.Float x => Except.error ⟨uri, Unexpected.Float x⟩
  | ValueKind.String s => Except.error ⟨uri, Unexpected.Str s⟩

/-- True exactly for the `Table` kind. -/
def ValueKind.isTable : ValueKind → Bool
  | ValueKind.Table _ => true
  | _ => false

/-- Follows the spec's words (sections 4.4 and 7): the `Unexpected`
description names exactly the offending `ValueKind`. -/
def unexpectedMatchesKind : Unexpected → ValueKind → Bool
  | Unexpected.Unit, ValueKind.Nil => true
  | Unexpected.Seq, ValueKind.Array _ => true
  | Unexpected.Bool b, ValueKind.Boolean b2 => decide (b = b2)
  | Unexpected.I64 n, ValueKind.I64 m => decide (n = m)
  | Unexpected.I128 n, ValueKind.I128 m => decide (n = m)
  | Unexpected.U64 n, ValueKind.U64 m => decide (n = m)
  | Unexpected.U128 n, ValueKind.U128 m => decide (n = m)
  | Unexpected.Float x, ValueKind.Float y => decide (x = y)
  | Unexpected.Str s, ValueKind.String s2 => decide (s = s2)
  | _, _ => false

/-- Mirror of `ParsedValue` (`src/format.rs` lines 54-72), the ambiguous
intermediate model.  The declared variant order is the untagged probe
order: Boolean, I64, I128, U64, U128, Float, String, Table, Array, Option,
and finally Nil as the catch-all. -/
inductive ParsedValue where
  | Boolean (b : Bool)
  | I64 (n : Int)
  | I128 (n : Int)
  | U64 (n : Nat)
  | U128 (n : Nat)
  | Float (x : F64)
  | String (s : String)
  | Table (m : List (String × ParsedValue))
  | Array (xs : List ParsedValue)
  | Option (o : Option ParsedValue)
  | Nil

mutual
/-- Mirror of `from_parsed_value` (`src/format.rs` lines 75-112): lower a
`ParsedValue` into a `Value`, attaching the given origin at every node.
Scalars map one-to-one, tables and arrays are transformed recursively
(tables re-collected through the map type, as `collect()` does), a present
`Option` is unwrapped to the inner value's kind and an absent one becomes
`Nil`. -/
def from_parsed_value (uri : Option String) (value : ParsedValue) : Value :=
  Value.new uri
    (match value with
     | ParsedValue.Nil => ValueKind.Nil
     | ParsedValue.String v => ValueKind.String v
     | ParsedValue.I64 v => ValueKind.I64 v
     | ParsedValue.I128 v => ValueKind.I128 v
     | ParsedValue.U64 v => ValueKind.U64 v
     | ParsedValue.U128 v => ValueKind.U128 v
     | ParsedValue.Float v => ValueKind.Float v
     | ParsedValue.Boolean v => ValueKind.Boolean v
     | ParsedValue.Table table => ValueKind.Table (Map.fromList (fromParsedEntries uri table))
     | ParsedValue.Array array => ValueKind.Array (fromParsedList uri array)
     | ParsedValue.Option v =>
       match v with
       | Option.some boxed => Value.kind (from_parsed_value uri boxed)
       | Option.none => ValueKind.Nil)

/-- Entrywise recursion of `from_parsed_value` over a table's bindings
(the `table.into_iter().map(...)` iterator). -/
def fromParsedEntries (uri : Option String) : List (String × ParsedValue) → List (String × Value)
  | [] => []
  | (k, v) :: rest => (k, from_parsed_value uri v) :: fromParsedEntries uri rest

/-- Elementwise recursion of `from_parsed_value` over an array
(the `array.into_iter().map(...)` iterator). -/
def fromParsedList (uri : Option String) : List ParsedValue → List Value
  | [] => []
  | v :: rest => from_parsed_value uri v :: fromParsedList uri rest
end

mutual
/-- Structural depth of a `ParsedValue` tree, used as a fuel bound for the
step-indexed evaluator below. -/
def ParsedValue.depth : ParsedValue → Nat
  | ParsedValue.Table t => parsedEntriesDepth t + 1
  | ParsedValue.Array xs => parsedListDepth xs + 1
  | ParsedValue.Option (Option.some v) => ParsedValue.depth v + 1
  | _ => 1

/-- Depth of the deepest value bound in a table. -/
def parsedEntriesDepth : List (String × ParsedValue) → Nat
  | [] => 0
  | (_, v) :: rest => max (ParsedValue.depth v) (parsedEntriesDepth rest)

/-- Depth of the deepest element of an array. -/
def parsedListDepth : List ParsedValue → Nat
  | [] => 0
  | v :: rest => max (ParsedValue.depth v) (parsedListDepth rest)
end

mutual
/-- Step-indexed evaluator for `from_parsed_value`: the same computation,
but spending one unit of fuel per tree level and answering `none` when the
fuel runs out.  It witnesses that the recursion of `from_parsed_value`
terminates (with any fuel at least the tree depth) and has no failure
case. -/
def fromParsedValueFuel : Nat → Option String → ParsedValue → Option Value
  | 0, _, _ => Option.none
  | Nat.succ fuel, uri, value =>
    Option.map (Value.new uri)
      (match value with
       | ParsedValue.Nil => Option.some ValueKind.Nil
       | ParsedValue.String v => Option.some (ValueKind.String v)
       | ParsedValue.I64 v => Option.some (ValueKind.I64 v)
       | ParsedValue.I128 v => Option.some (ValueKind.I128 v)
       | ParsedValue.U64 v => Option.some (ValueKind.U64 v)
       | ParsedValue.U128 v => Option.some (ValueKind.U128 v)
       | ParsedValue.Float v => Option.some (ValueKind.Float v)
       | ParsedValue.Boolean v => Option.some (ValueKind.Boolean v)
       | ParsedValue.Table table =>
         Option.map (fun l => ValueKind.Table (Map.fromList l)) (fuelEntries fuel uri table)
       | ParsedValue.Array array =>
         Option.map ValueKind.Array (fuelList fuel uri array)
       | ParsedValue.Option v =>
         match v with
         | Option.some boxed => Option.map Value.kind (fromParsedValueFuel fuel uri boxed)
         | Option.none => Option.some ValueKind.Nil)
termination_by fuel _ _ => (fuel, 0)

/-- Entrywise step-indexed evaluation of a table's bindings. -/
def fuelEntries : Nat → Option String → List (String × ParsedValue) → Option (List (String × Value))
  | _, _, [] => Option.some []
  | fuel, uri, (k, v) :: rest =>
    match fromParsedValueFuel fuel uri v, fuelEntries fuel uri rest with
    | Option.some w, Option.some l => Option.some ((k, w) :: l)
    | _, _ => Option.none
termination_by fuel _ l => (fuel, l.length + 1)

/-- Elementwise step-indexed evaluation of an array. -/
def fuelList : Nat → Option String → List ParsedValue → Option (List Value)
  | _, _, [] => Option.some []
  | fuel, uri, v :: rest =>
    match fromParsedValueFuel fuel uri v, fuelList fuel uri rest with
    | Option.some w, Option.some l => Option.some (w :: l)
    | _, _ => Option.none
termination_by fuel _ l => (fuel, l.length + 1)
end

/-- Compile-time format capabilities of the crate: the `toml` feature gates
the date/time promotion in the string probe, the `yaml` feature gates the
native-mapping branch of the map probe (`#[cfg(feature = ...)]` in
`src/format.rs`). -/
structure Features where
  toml : Bool
  yaml : Bool
deriving DecidableEq

/-- Model of serde's buffered self-describing content, the value an
untagged probe inspects: the shapes a format deserializer can hand to
`ParsedValue`'s derived `Deserialize`.  `datetimeC` stands for a native
TOML date/time value and carries its canonical text rendering; `bytesC`
stands for a raw byte buffer. -/
inductive Content where
  | boolC (b : Bool)
  | i64C (n : Int)
  | i128C (n : Int)
  | u64C (n : Nat)
  | u128C (n : Nat)
  | f64C (x : F64)
  | charC (c : Char)
  | strC (s : String)
  | bytesC (bs : List Nat)
  | unitC
  | noneC
  | someC (c : Content)
  | seqC (xs : List Content)
  | mapC (entries : List (Content × Content))
  | datetimeC (text : String)

/-- Bounds of the machine integer types, written out as integers. -/
def i64MinI : Int := -(2 ^ 63)

/-- Largest `i64`, as an integer. -/
def i64MaxI : Int := 2 ^ 63 - 1

/-- Largest `i128`, as an integer. -/
def i128MaxI : Int := 2 ^ 127 - 1

/-- Largest `u64`, as a natural number. -/
def u64MaxN : Nat := 2 ^ 64 - 1

/-- The `bool` arm of the untagged probe: serde's `bool` visitor accepts
exactly boolean content. -/
def tryBoolean : Content → Option Bool
  | Content.boolC b => Option.some b
  | _ => Option.none

/-- The `i64` arm: serde's integer visitors perform lossless range-checked
conversions between integer contents, so any integer content whose value
fits in `i64` is accepted. -/
def tryI64 : Content → Option Int
  | Content.i64C n => Option.some n
  | Content.i128C n => if i64MinI ≤ n ∧ n ≤ i64MaxI then Option.some n else Option.none
  | Content.u64C n => if (n : Int) ≤ i64MaxI then Option.some (n : Int) else Option.none
  | Content.u128C n => if (n : Int) ≤ i64MaxI then Option.some (n : Int) else Option.none
  | _ => Option.none

/-- The `i128` arm: any integer content whose value fits in `i128`. -/
def tryI128 : Content → Option Int
  | Content.i64C n => Option.some n
  | Content.i128C n => Option.some n
  | Content.u64C n => Option.some (n : Int)
  | Content.u128C n => if (n : Int) ≤ i128MaxI then Option.some (n : Int) else Option.none
  | _ => Option.none

/-- The `u64` arm: any non-negative integer content fitting in `u64`. -/
def tryU64 : Content → Option Nat
  | Content.i64C n => if 0 ≤ n then Option.some n.toNat else Option.none
  | Content.i128C n => if 0 ≤ n ∧ n ≤ (u64MaxN : Int) then Option.some n.toNat else Option.none
  | Content.u64C n => Option.some n
  | Content.u128C n => if n ≤ u64MaxN then Option.some n else Option.none
  | _ => Option.none

/-- The `u128` arm: any non-negative integer content. -/
def tryU128 : Content → Option Nat
  | Content.i64C n => if 0 ≤ n then Option.some n.toNat else Option.none
  | Content.i128C n => if 0 ≤ n then Option.some n.toNat else Option.none
  | Content.u64C n => Option.some n
  | Content.u128C n => Option.some n
  | _ => Option.none

/-- The `f64` arm.  Serde's `f64` visitor would also accept integer
contents (as casts), but every integer content is already committed to one
of the earlier integer arms of the probe, so only float content reaches
this arm; the model therefore matches float content alone. -/
def tryFloat : Content → Option F64
  | Content.f64C x => Option.some x
  | _ => Option.none

/-- One UTF-8 continuation byte (10xxxxxx). -/
def isUtf8Cont (b : Nat) : Bool := 128 ≤ b && b ≤ 191

/-- Decode a byte sequence as UTF-8 (shortest forms only, no surrogate
code points, at most U+10FFFF) — the check serde's string visitor
performs when it is offered byte content. -/
def utf8Chars : List Nat → Option (List Char)
  | [] => Option.some []
  | b :: rest =>
    if b ≤ 127 then
      Option.map (fun cs => Char.ofNat b :: cs) (utf8Chars rest)
    else if 194 ≤ b && b ≤ 223 then
      match rest with
      | b1 :: rest1 =>
        if isUtf8Cont b1 then
          Option.map (fun cs => Char.ofNat ((b - 192) * 64 + (b1 - 128)) :: cs) (utf8Chars rest1)
        else Option.none
      | [] => Option.none
    else if 224 ≤ b && b ≤ 239 then
      match rest with
      | b1 :: b2 :: rest2 =>
        if (if b = 224 then 160 ≤ b1 && b1 ≤ 191
            else if b = 237 then 128 ≤ b1 && b1 ≤ 159
            else isUtf8Cont b1) && isUtf8Cont b2 then
          Option.map
            (fun cs => Char.ofNat ((b - 224) * 4096 + (b1 - 128) * 64 + (b2 - 128)) :: cs)
            (utf8Chars rest2)
        else Option.none
      | _ => Option.none
    else if 240 ≤ b && b ≤ 244 then
      match rest with
      | b1 :: b2 :: b3 :: rest3 =>
        if (if b = 240 then 144 ≤ b1 && b1 ≤ 191
            else if b = 244 then 128 ≤ b1 && b1 ≤ 143
            else isUtf8Cont b1) && isUtf8Cont b2 && isUtf8Cont b3 then
          Option.map
            (fun cs =>
              Char.ofNat ((b - 240) * 262144 + (b1 - 128) * 4096 + (b2 - 128) * 64 + (b3 - 128)) :: cs)
            (utf8Chars rest3)
        else Option.none
      | _ => Option.none
    else Option.none

/-- UTF-8 decoding of a byte buffer into a string, when valid. -/
def utf8Decode (bs : List Nat) : Option String :=
  Option.map (fun cs => String.mk cs) (utf8Chars bs)

/-- Mirror of the `ParsedString` helper enum inside
`deserialize_parsed_string` (`src/format.rs` lines 118-127): literal
string, single character, or (with the `toml` feature) a native date/time
value. -/
inductive ParsedString where
  | String (s : String)
  | Char (c : Char)
  | TomlDateTime (t : String)

/-- The untagged probe of `ParsedString`, in declared order.  The
`String` arm accepts what serde's `String` deserialization accepts from
buffered content: literal string content, and byte content that is valid
UTF-8 (the string visitor's `visit_bytes`).  Then the `Char` arm accepts
a single character, and the `TomlDateTime` arm (only when the `toml`
feature is compiled in) a native date/time value. -/
def parsedStringProbe (ft : Features) : Content → Option ParsedString
  | Content.strC s => Option.some (ParsedString.String s)
  | Content.bytesC bs =>
    (match utf8Decode bs with
     | Option.some s => Option.some (ParsedString.String s)
     | Option.none => Option.none)
  | Content.charC c => Option.some (ParsedString.Char c)
  | Content.datetimeC t =>
    if ft.toml then Option.some (ParsedString.TomlDateTime t) else Option.none
  | _ => Option.none

/-- Deserialization errors surfaced by the secondary probes; `custom`
mirrors `serde::de::Error::custom`. -/
inductive DeError where
  | invalidType
  | custom (msg : String)
deriving DecidableEq

/-- Mirror of `deserialize_parsed_string` (`src/format.rs` lines 114-135):
probe `ParsedString`, then render the matched variant to a string — a
character via its one-character string, a date/time via its canonical text
rendering (`to_string`, the text carried by the content). -/
def deserialize_parsed_string (ft : Features) (c : Content) : Except DeError String :=
  match parsedStringProbe ft c with
  | Option.some (ParsedString.String v) => Except.ok v
  | Option.some (ParsedString.Char v) => Except.ok (String.singleton v)
  | Option.some (ParsedString.TomlDateTime v) => Except.ok v
  | Option.none => Except.error DeError.invalidType

/-- True exactly for literal string content. -/
def Content.isStrC : Content → Bool
  | Content.strC _ => true
  | _ => false

/-- The string payload of string content (used under the all-string-keys
guard of the literal table probe). -/
def Content.strOrEmpty : Content → String
  | Content.strC s => s
  | _ => ""

mutual
/-- Whether content round-trips into a `serde_yaml::Value` (the shapes the
yaml value model can hold): scalars, strings, characters, nulls, and
recursively well-shaped sequences and mappings.  128-bit integers, raw
bytes and date/time values have no yaml value representation. -/
def Content.yamlish : Content → Bool
  | Content.boolC _ => true
  | Content.i64C _ => true
  | Content.u64C _ => true
  | Content.f64C _ => true
  | Content.charC _ => true
  | Content.strC _ => true
  | Content.unitC => true
  | Content.noneC => true
  | Content.someC c => Content.yamlish c
  | Content.seqC xs => contentListYamlish xs
  | Content.mapC es => contentPairsYamlish es
  | _ => false

/-- All elements yaml-representable. -/
def contentListYamlish : List Content → Bool
  | [] => true
  | c :: rest => Content.yamlish c && contentListYamlish rest

/-- All keys and values yaml-representable. -/
def contentPairsYamlish : List (Content × Content) → Bool
  | [] => true
  | (k, v) :: rest => Content.yamlish k && Content.yamlish v && contentPairsYamlish rest
end

/-- The re-keying of one native mapping key (`src/format.rs` lines
158-162): a yaml `Number` key — integer or float — is rendered via
`to_string` (an integer as its decimal text, a float as its carried
decimal rendering), a yaml `String` key (a literal string, or a character
read as a one-character string) is kept, a `Some`-wrapped key is read as
its content, and anything else (booleans, nulls, sequences, mappings) is
rejected with the custom error. -/
def Content.yamlKeyText : Content → Option String
  | Content.strC s => Option.some s
  | Content.charC c => Option.some (String.singleton c)
  | Content.i64C n => Option.some (toString n)
  | Content.u64C n => Option.some (toString n)
  | Content.f64C x => Option.some x.text
  | Content.someC c => Content.yamlKeyText c
  | _ => Option.none

mutual
/-- The untagged deserialization probe of `ParsedValue` (`src/format.rs`
lines 54-72): try each variant against the buffered content in declared
order and commit to the first success — Boolean, I64, I128, U64, U128,
Float, String (via `deserialize_parsed_string`), Table (via
`deserialize_parsed_map`, whose mapping body is `tableArm`), Array,
Option, and the declared `Nil` catch-all last.  The probe is partial:
serde's `deserialize_option` ends in a `visit_some(self)` fall-through,
so on content that is not option- or unit-shaped the Option arm re-enters
this same probe on the same content; when the earlier arms have failed
that recursion makes no progress and the source never terminates — and
the `Nil` arm is unreachable, because the Option arm never fails.  The
`fuel` argument bounds the number of probe entries, and `none` means the
fuel ran out; by fuel monotonicity (proved below) the inputs yielding
`none` at every fuel are those on which the source diverges. -/
def parsedValueFromContent : Nat → Features → Content → Option ParsedValue
  | 0, _, _ => Option.none
  | Nat.succ fuel, ft, c =>
    match tryBoolean c with
    | Option.some v => Option.some (ParsedValue.Boolean v)
    | Option.none =>
    match tryI64 c with
    | Option.some v => Option.some (ParsedValue.I64 v)
    | Option.none =>
    match tryI128 c with
    | Option.some v => Option.some (ParsedValue.I128 v)
    | Option.none =>
    match tryU64 c with
    | Option.some v => Option.some (ParsedValue.U64 v)
    | Option.none =>
    match tryU128 c with
    | Option.some v => Option.some (ParsedValue.U128 v)
    | Option.none =>
    match tryFloat c with
    | Option.some v => Option.some (ParsedValue.Float v)
    | Option.none =>
    match deserialize_parsed_string ft c with
    | Except.ok s => Option.some (ParsedValue.String s)
    | Except.error _ =>
    match c with
    | Content.mapC es =>
      (match tableArm fuel ft es with
       | Option.some (Except.ok m) => Option.some (ParsedValue.Table m)
       | Option.some (Except.error _) =>
         -- The Array and Option shapes reject mapping content, so the
         -- next step is the Option arm's visit_some fall-through:
         -- re-probe the same content, wrapped in Some.
         Option.map (fun inner => ParsedValue.Option (Option.some inner))
           (parsedValueFromContent fuel ft (Content.mapC es))
       | Option.none => Option.none)
    | Content.seqC xs =>
      Option.map ParsedValue.Array (probeContentList fuel ft xs)
    | Content.unitC => Option.some (ParsedValue.Option Option.none)
    | Content.noneC => Option.some (ParsedValue.Option Option.none)
    | Content.someC v =>
      Option.map (fun inner => ParsedValue.Option (Option.some inner))
        (parsedValueFromContent fuel ft v)
    | c2 =>
      -- visit_some fall-through of the Option arm on any other content.
      Option.map (fun inner => ParsedValue.Option (Option.some inner))
        (parsedValueFromContent fuel ft c2)
termination_by fuel _ _ => (fuel, 0, 0)

/-- The mapping body of `deserialize_parsed_map` (`src/format.rs` lines
141-173): the untagged `ParsedMap` probe first tries the literal
ordered-map shape (string keys, each value re-probed as `ParsedValue`),
then — only with the `yaml` feature — the native yaml mapping shape,
re-keyed by `rekeyPairs`; if neither matches, the probe fails.  `none`
propagates the non-termination of a value's re-probe. -/
def tableArm (fuel : Nat) (ft : Features) (es : List (Content × Content)) :
    Option (Except DeError (Map ParsedValue)) :=
  if es.all (fun kv => Content.isStrC kv.1) then
    Option.map (fun l => Except.ok (Map.fromList l)) (probeContentPairs fuel ft es)
  else if ft.yaml && contentPairsYamlish es then
    Option.map (Except.map Map.fromList) (rekeyPairs fuel ft es)
  else
    Option.some (Except.error DeError.invalidType)
termination_by (fuel, 2, 0)

/-- Entrywise probing of a literal table's bindings: keep the string key,
re-probe the value; `none` when a value's probe runs out of fuel. -/
def probeContentPairs : Nat → Features → List (Content × Content) → Option (List (String × ParsedValue))
  | _, _, [] => Option.some []
  | fuel, ft, (k, v) :: rest =>
    match parsedValueFromContent fuel ft v, probeContentPairs fuel ft rest with
    | Option.some pv, Option.some l => Option.some ((Content.strOrEmpty k, pv) :: l)
    | _, _ => Option.none
termination_by fuel _ es => (fuel, 1, es.length)

/-- The native-mapping re-keying loop (`src/format.rs` lines 154-172):
for each entry, re-probe the value (`serde_yaml::from_value`, which in
the source either succeeds or never returns — `none` here) and render
the key via `Content.yamlKeyText`; the first entry whose key is not
representable aborts the whole collection with the custom error. -/
def rekeyPairs : Nat → Features → List (Content × Content) → Option (Except DeError (List (String × ParsedValue)))
  | _, _, [] => Option.some (Except.ok [])
  | fuel, ft, (k, v) :: rest =>
    match parsedValueFromContent fuel ft v with
    | Option.none => Option.none
    | Option.some pv =>
      match Content.yamlKeyText k with
      | Option.some ks =>
        Option.map (Except.map (fun l => (ks, pv) :: l)) (rekeyPairs fuel ft rest)
      | Option.none =>
        Option.some (Except.error (DeError.custom "should not be serialized to Map"))
termination_by fuel _ es => (fuel, 1, es.length)

/-- Elementwise probing of sequence content (the `Array` arm's
`Vec<ParsedValue>`); `none` when an element's probe runs out of fuel. -/
def probeContentList : Nat → Features → List Content → Option (List ParsedValue)
  | _, _, [] => Option.some []
  | fuel, ft, v :: rest =>
    match parsedValueFromContent fuel ft v, probeContentList fuel ft rest with
    | Option.some pv, Option.some l => Option.some (pv :: l)
    | _, _ => Option.none
termination_by fuel _ xs => (fuel, 1, xs.length)
end

/-- Mirror of `deserialize_parsed_map` (`src/format.rs` lines 137-173):
the untagged `ParsedMap` probe only matches mapping content (via
`tableArm`); any other content shape fails both of its arms. -/
def deserialize_parsed_map (fuel : Nat) (ft : Features) (c : Content) :
    Option (Except DeError (Map ParsedValue)) :=
  match c with
  | Content.mapC es => tableArm fuel ft es
  | _ => Option.some (Except.error DeError.invalidType)

/-- Follows the spec's words (section 4.2, string probe): try a literal
string as-is; else a single character promoted to the one-character
string; else, only when the date/time capability is compiled in, a native
date/time value promoted to its canonical text rendering; otherwise
fail. -/
def stringProbeSpec (ft : Features) : Content → Except DeError String
  | Content.strC s => Except.ok s
  | Content.charC c => Except.ok (String.singleton c)
  | Content.datetimeC t =>
    if ft.toml then Except.ok t else Except.error DeError.invalidType
  | _ => Except.error DeError.invalidType

/-- Follows the amended claim's words: a literal string succeeds as-is
and a valid-UTF-8 byte buffer succeeds as its decoded string (both are
read by the String arm); else a single character promoted to the
one-character string; else, only when the date/time capability is
compiled in, a native date/time value promoted to its canonical text
rendering; otherwise fail. -/
def stringProbeSpecBytes (ft : Features) : Content → Except DeError String
  | Content.strC s => Except.ok s
  | Content.bytesC bs =>
    (match utf8Decode bs with
     | Option.some s => Except.ok s
     | Option.none => Except.error DeError.invalidType)
  | Content.charC c => Except.ok (String.singleton c)
  | Content.datetimeC t =>
    if ft.toml then Except.ok t else Except.error DeError.invalidType
  | _ => Except.error DeError.invalidType

mutual
/-- Every node of the tree (this node included) carries exactly the given
origin label. -/
def Value.originsAll (uri : Option String) : Value → Bool
  | Value.mk o k => decide (o = uri) && kindOriginsAll uri k

/-- Origin check on the children below a kind. -/
def kindOriginsAll (uri : Option String) : ValueKind → Bool
  | ValueKind.Table m => entriesOriginsAll uri m
  | ValueKind.Array xs => listOriginsAll uri xs
  | _ => true

/-- Origin check on table entries. -/
def entriesOriginsAll (uri : Option String) : List (String × Value) → Bool
  | [] => true
  | (_, v) :: rest => Value.originsAll uri v && entriesOriginsAll uri rest

/-- Origin check on array elements. -/
def listOriginsAll (uri : Option String) : List Value → Bool
  | [] => true
  | v :: rest => Value.originsAll uri v && listOriginsAll uri rest
end

mutual
/-- Every table anywhere in the tree has pairwise distinct keys (the shape
`Value` trees produced by one parse call always have). -/
def Value.tablesNodup : Value → Bool
  | Value.mk _ k => kindTablesNodup k

/-- Key-uniqueness check below a kind. -/
def kindTablesNodup : ValueKind → Bool
  | ValueKind.Table m => Map.keysNodup m && entriesTablesNodup m
  | ValueKind.Array xs => listTablesNodup xs
  | _ => true

/-- Key-uniqueness check on table entries. -/
def entriesTablesNodup : List (String × Value) → Bool
  | [] => true
  | (_, v) :: rest => Value.tablesNodup v && entriesTablesNodup rest

/-- Key-uniqueness check on array elements. -/
def listTablesNodup : List Value → Bool
  | [] => true
  | v :: rest => Value.tablesNodup v && listTablesNodup rest
end

mutual
/-- The canonical re-encoding of a `ValueKind` into the intermediate
model: each scalar to its one-to-one `ParsedValue` variant, tables
entrywise, arrays elementwise (inner origins are not representable in
`ParsedValue` and are dropped). -/
def ValueKind.toParsed : ValueKind → ParsedValue
  | ValueKind.Nil => ParsedValue.Nil
  | ValueKind.Boolean b => ParsedValue.Boolean b
  | ValueKind.I64 n => ParsedValue.I64 n
  | ValueKind.I128 n => ParsedValue.I128 n
  | ValueKind.U64 n => ParsedValue.U64 n
  | ValueKind.U128 n => ParsedValue.U128 n
  | ValueKind.Float x => ParsedValue.Float x
  | ValueKind.String s => ParsedValue.String s
  | ValueKind.Table m => ParsedValue.Table (entriesToParsed m)
  | ValueKind.Array xs => ParsedValue.Array (listToParsed xs)

/-- Entrywise re-encoding of a table. -/
def entriesToParsed : List (String × Value) → List (String × ParsedValue)
  | [] => []
  | (k, Value.mk _ kd) :: rest => (k, ValueKind.toParsed kd) :: entriesToParsed rest

/-- Elementwise re-encoding of an array. -/
def listToParsed : List Value → List ParsedValue
  | [] => []
  | Value.mk _ kd :: rest => ValueKind.toParsed kd :: listToParsed rest
end

theorem Map.keyMem_append {α : Type} (x : String) (a b : Map α) :
    Map.keyMem x (a ++ b) = (Map.keyMem x a || Map.keyMem x b) := by
  induction a with
  | nil => simp [Map.keyMem]
  | cons kv rest ih =>
    obtain ⟨k1, v1⟩ := kv
    by_cases h : k1 = x <;> simp [Map.keyMem, h, ih]

theorem Map.keyMem_eq_false_iff {α : Type} (x : String) (l : Map α) :
    Map.keyMem x l = false ↔ ∀ kv ∈ l, kv.1 ≠ x := by
  induction l with
  | nil => simp [Map.keyMem]
  | cons kv rest ih =>
    obtain ⟨k1, v1⟩ := kv
    by_cases h : k1 = x <;> simp [Map.keyMem, h, ih]

theorem Map.insertEntry_of_absent {α : Type} (m : Map α) (k : String) (v : α)
    (h : Map.keyMem k m = false) : Map.insertEntry m k v = m ++ [(k, v)] := by
  induction m with
  | nil => simp [Map.insertEntry]
  | cons kv rest ih =>
    obtain ⟨k1, v1⟩ := kv
    by_cases hk : k1 = k
    · simp [Map.keyMem, hk] at h
    · simp [Map.keyMem, hk] at h
      simp [Map.insertEntry, hk, ih h]

theorem Map.insertList_of_absent {α : Type} (l : List (String × α)) :
    ∀ acc : Map α, (∀ kv ∈ l, Map.keyMem kv.1 acc = false) →
    Map.keysNodup l = true → Map.insertList acc l = acc ++ l := by
  induction l with
  | nil => intro acc _ _; simp [Map.insertList]
  | cons kv rest ih =>
    intro acc h1 h2
    obtain ⟨k, v⟩ := kv
    simp [Map.keysNodup] at h2
    have habs : Map.keyMem k acc = false := h1 (k, v) (List.mem_cons_self _ _)
    have hstep : Map.insertEntry acc k v = acc ++ [(k, v)] :=
      Map.insertEntry_of_absent acc k v habs
    have hrest : ∀ kv2 ∈ rest, Map.keyMem kv2.1 (acc ++ [(k, v)]) = false := by
      intro kv2 hmem
      have hne : kv2.1 ≠ k := (Map.keyMem_eq_false_iff k rest).1 h2.1 kv2 hmem
      have : Map.keyMem kv2.1 [(k, v)] = false := by
        simp [Map.keyMem]
        intro hkk
        exact absurd hkk.symm hne
      simp [Map.keyMem_append, h1 kv2 (List.mem_cons_of_mem _ hmem), this]
    calc Map.insertList acc ((k, v) :: rest)
        = Map.insertList (acc ++ [(k, v)]) rest := by simp [Map.insertList, hstep]
      _ = (acc ++ [(k, v)]) ++ rest := ih (acc ++ [(k, v)]) hrest h2.2
      _ = acc ++ ((k, v) :: rest) := by simp

theorem Map.fromList_of_nodup {α : Type} (l : List (String × α))
    (h : Map.keysNodup l = true) : Map.fromList l = l := by
  have := Map.insertList_of_absent l [] (by intro kv _; simp [Map.keyMem]) h
  simpa [Map.fromList] using this

theorem Map.keyMem_mapValues {α β : Type} (f : α → β) (x : String) (l : Map α) :
    Map.keyMem x (l.map (fun kv => (kv.1, f kv.2))) = Map.keyMem x l := by
  induction l with
  | nil => rfl
  | cons kv rest ih =>
    obtain ⟨k1, v1⟩ := kv
    by_cases h : k1 = x <;> simp [Map.keyMem, h, ih]

theorem Map.keysNodup_mapValues {α β : Type} (f : α → β) (l : Map α) :
    Map.keysNodup (l.map (fun kv => (kv.1, f kv.2))) = Map.keysNodup l := by
  induction l with
  | nil => rfl
  | cons kv rest ih =>
    obtain ⟨k1, v1⟩ := kv
    simp [Map.keysNodup, Map.keyMem_mapValues, ih]

theorem fromParsedEntries_eq_map (uri : Option String) (l : List (String × ParsedValue)) :
    fromParsedEntries uri l = l.map (fun kv => (kv.1, from_parsed_value uri kv.2)) := by
  induction l with
  | nil => simp [fromParsedEntries]
  | cons kv rest ih =>
    obtain ⟨k, v⟩ := kv
    simp [fromParsedEntries, ih]

theorem fromParsedList_eq_map (uri : Option String) (l : List ParsedValue) :
    fromParsedList uri l = l.map (from_parsed_value uri) := by
  induction l with
  | nil => simp [fromParsedList]
  | cons v rest ih => simp [fromParsedList, ih]

/-- C1: `extract_root_table` succeeds with the inner map exactly when the
root kind is `Table`; for every other kind it fails with a typed
root-shape error that names the offending kind and carries the origin
label `uri`. -/
theorem extract_root_table_root_shape (uri : Option String) (v : Value) :
    (∀ m, Value.kind v = ValueKind.Table m → extract_root_table uri v = Except.ok m)
  ∧ (∀ m, extract_root_table uri v = Except.ok m → Value.kind v = ValueKind.Table m)
  ∧ (ValueKind.isTable (Value.kind v) = false →
      ∃ u, extract_root_table uri v = Except.error ⟨uri, u⟩
        ∧ unexpectedMatchesKind u (Value.kind v) = true) := by
  obtain ⟨o, k⟩ := v
  cases k <;>
    simp [extract_root_table, Value.kind, ValueKind.isTable, unexpectedMatchesKind]

/-- Witness for C1 at a concrete boolean root. -/
theorem extract_root_table_root_shape_witness :
    ∃ u, extract_root_table (Option.some "cfg")
          (Value.mk (Option.some "cfg") (ValueKind.Boolean true))
          = Except.error ⟨Option.some "cfg", u⟩
      ∧ unexpectedMatchesKind u
          (Value.kind (Value.mk (Option.some "cfg") (ValueKind.Boolean true))) = true :=
  (extract_root_table_root_shape (Option.some "cfg")
    (Value.mk (Option.some "cfg") (ValueKind.Boolean true))).2.2 rfl

/-- C3: `from_parsed_value` maps each constructor to its canonical kind:
scalars (including `Nil`) one-to-one, tables entrywise recursively with
key order and uniqueness preserved (as received from the intermediate
map), arrays elementwise recursively in order, a present option to the
inner value's normalized kind, an absent option to `Nil`. -/
theorem from_parsed_value_constructor_map (uri : Option String) :
    (∀ b, Value.kind (from_parsed_value uri (ParsedValue.Boolean b)) = ValueKind.Boolean b)
  ∧ (∀ n, Value.kind (from_parsed_value uri (ParsedValue.I64 n)) = ValueKind.I64 n)
  ∧ (∀ n, Value.kind (from_parsed_value uri (ParsedValue.I128 n)) = ValueKind.I128 n)
  ∧ (∀ n, Value.kind (from_parsed_value uri (ParsedValue.U64 n)) = ValueKind.U64 n)
  ∧ (∀ n, Value.kind (from_parsed_value uri (ParsedValue.U128 n)) = ValueKind.U128 n)
  ∧ (∀ x, Value.kind (from_parsed_value uri (ParsedValue.Float x)) = ValueKind.Float x)
  ∧ (∀ s, Value.kind (from_parsed_value uri (ParsedValue.String s)) = ValueKind.String s)
  ∧ (Value.kind (from_parsed_value uri ParsedValue.Nil) = ValueKind.Nil)
  ∧ (∀ t, Map.keysNodup t = true →
      Value.kind (from_parsed_value uri (ParsedValue.Table t))
        = ValueKind.Table (t.map (fun kv => (kv.1, from_parsed_value uri kv.2))))
  ∧ (∀ xs, Value.kind (from_parsed_value uri (ParsedValue.Array xs))
        = ValueKind.Array (xs.map (from_parsed_value uri)))
  ∧ (∀ pv, Value.kind (from_parsed_value uri (ParsedValue.Option (Option.some pv)))
        = Value.kind (from_parsed_value uri pv))
  ∧ (Value.kind (from_parsed_value uri (ParsedValue.Option Option.none)) = ValueKind.Nil) := by
  refine ⟨?_, ?_, ?_, ?_, ?_, ?_, ?_, ?_, ?_, ?_, ?_, ?_⟩
  · intro b; simp [from_parsed_value, Value.new, Value.kind]
  · intro n; simp [from_parsed_value, Value.new, Value.kind]
  · intro n; simp [from_parsed_value, Value.new, Value.kind]
  · intro n; simp [from_parsed_value, Value.new, Value.kind]
  · intro n; simp [from_parsed_value, Value.new, Value.kind]
  · intro x; simp [from_parsed_value, Value.new, Value.kind]
  · intro s; simp [from_parsed_value, Value.new, Value.kind]
  · simp [from_parsed_value, Value.new, Value.kind]
  · intro t ht
    have hnodup : Map.keysNodup (t.map (fun kv => (kv.1, from_parsed_value uri kv.2))) = true := by
      rw [Map.keysNodup_mapValues]; exact ht
    simp [from_parsed_value, Value.new, Value.kind, fromParsedEntries_eq_map,
          Map.fromList_of_nodup _ hnodup]
  · intro xs
    simp [from_parsed_value, Value.new, Value.kind, fromParsedList_eq_map]
  · intro pv; simp [from_parsed_value, Value.new, Value.kind]
  · simp [from_parsed_value, Value.new, Value.kind]

/-- Witness for C3's table clause at a concrete one-entry table. -/
theorem from_parsed_value_constructor_map_witness :
    Map.keysNodup [("a", ParsedValue.I64 1)] = true
  ∧ Value.kind (from_parsed_value Option.none (ParsedValue.Table [("a", ParsedValue.I64 1)]))
      = ValueKind.Table [("a", from_parsed_value Option.none (ParsedValue.I64 1))] :=
  ⟨rfl, by
    have h := (from_parsed_value_constructor_map Option.none).2.2.2.2.2.2.2.2.1
      [("a", ParsedValue.I64 1)] rfl
    simpa using h⟩

theorem ParsedValue.depth_pos (v : ParsedValue) : 0 < ParsedValue.depth v := by
  cases v with
  | Table t => simp [ParsedValue.depth]
  | Array xs => simp [ParsedValue.depth]
  | Option o => cases o <;> simp [ParsedValue.depth]
  | _ => simp [ParsedValue.depth]

theorem fromParsedValueFuel_adequate :
    ∀ fuel : Nat, ∀ uri : Option String, ∀ v : ParsedValue,
      ParsedValue.depth v ≤ fuel →
      fromParsedValueFuel fuel uri v = Option.some (from_parsed_value uri v) := by
  intro fuel
  induction fuel with
  | zero =>
    intro uri v h
    exact absurd h (by have := ParsedValue.depth_pos v; omega)
  | succ fuel ih =>
    intro uri v h
    have hentries : ∀ t : List (String × ParsedValue), parsedEntriesDepth t ≤ fuel →
        fuelEntries fuel uri t = Option.some (fromParsedEntries uri t) := by
      intro t
      induction t with
      | nil => intro _; simp [fuelEntries, fromParsedEntries]
      | cons kv rest ih2 =>
        intro hd
        obtain ⟨k, v2⟩ := kv
        simp [parsedEntriesDepth, Nat.max_le] at hd
        simp [fuelEntries, fromParsedEntries, ih uri v2 hd.1, ih2 hd.2]
    have hlist : ∀ xs : List ParsedValue, parsedListDepth xs ≤ fuel →
        fuelList fuel uri xs = Option.some (fromParsedList uri xs) := by
      intro xs
      induction xs with
      | nil => intro _; simp [fuelList, fromParsedList]
      | cons v2 rest ih2 =>
        intro hd
        simp [parsedListDepth, Nat.max_le] at hd
        simp [fuelList, fromParsedList, ih uri v2 hd.1, ih2 hd.2]
    cases v with
    | Nil => simp [fromParsedValueFuel, from_parsed_value]
    | String s => simp [fromParsedValueFuel, from_parsed_value]
    | I64 n => simp [fromParsedValueFuel, from_parsed_value]
    | I128 n => simp [fromParsedValueFuel, from_parsed_value]
    | U64 n => simp [fromParsedValueFuel, from_parsed_value]
    | U128 n => simp [fromParsedValueFuel, from_parsed_value]
    | Float x => simp [fromParsedValueFuel, from_parsed_value]
    | Boolean b => simp [fromParsedValueFuel, from_parsed_value]
    | Table t =>
      have hd : parsedEntriesDepth t ≤ fuel := by
        simp [ParsedValue.depth] at h; omega
      simp [fromParsedValueFuel, from_parsed_value, hentries t hd]
    | Array xs =>
      have hd : parsedListDepth xs ≤ fuel := by
        simp [ParsedValue.depth] at h; omega
      simp [fromParsedValueFuel, from_parsed_value, hlist xs hd]
    | Option o =>
      cases o with
      | none => simp [fromParsedValueFuel, from_parsed_value]
      | some boxed =>
        have hd : ParsedValue.depth boxed ≤ fuel := by
          simp [ParsedValue.depth] at h; omega
        simp [fromParsedValueFuel, from_parsed_value, ih uri boxed hd]

/-- C4: `from_parsed_value` is total — for every constructible
`ParsedValue` tree and every optional origin, the recursion terminates
(any fuel at least the tree's depth suffices for the step-indexed
evaluator) and produces a `Value`, with no failure case: the result is
always `some` of the value `from_parsed_value` computes. -/
theorem from_parsed_value_total (uri : Option String) (v : ParsedValue) (fuel : Nat)
    (h : ParsedValue.depth v ≤ fuel) :
    fromParsedValueFuel fuel uri v = Option.some (from_parsed_value uri v) :=
  fromParsedValueFuel_adequate fuel uri v h

/-- Witness for C4 at a concrete tree and exact-depth fuel. -/
theorem from_parsed_value_total_witness :
    ParsedValue.depth (ParsedValue.Table [("a", ParsedValue.I64 1)]) ≤ 2
  ∧ fromParsedValueFuel 2 Option.none (ParsedValue.Table [("a", ParsedValue.I64 1)])
      = Option.some (from_parsed_value Option.none (ParsedValue.Table [("a", ParsedValue.I64 1)])) :=
  ⟨by simp [ParsedValue.depth, parsedEntriesDepth],
   from_parsed_value_total Option.none (ParsedValue.Table [("a", ParsedValue.I64 1)]) 2
     (by simp [ParsedValue.depth, parsedEntriesDepth])⟩

theorem entriesOriginsAll_insertEntry (uri : Option String) (m : Map Value) (k : String) (v : Value)
    (hm : entriesOriginsAll uri m = true) (hv : Value.originsAll uri v = true) :
    entriesOriginsAll uri (Map.insertEntry m k v) = true := by
  induction m with
  | nil => simp [Map.insertEntry, entriesOriginsAll, hv]
  | cons kv rest ih =>
    obtain ⟨k1, v1⟩ := kv
    simp [entriesOriginsAll] at hm
    by_cases h : k1 = k <;>
      simp [Map.insertEntry, h, entriesOriginsAll, hv, hm.1, hm.2, ih hm.2]

theorem entriesOriginsAll_insertList (uri : Option String) (l : List (String × Value)) :
    ∀ acc : Map Value, entriesOriginsAll uri acc = true → entriesOriginsAll uri l = true →
    entriesOriginsAll uri (Map.insertList acc l) = true := by
  induction l with
  | nil => intro acc hacc _; simpa [Map.insertList] using hacc
  | cons kv rest ih =>
    intro acc hacc hl
    obtain ⟨k, v⟩ := kv
    simp [entriesOriginsAll] at hl
    simp [Map.insertList]
    exact ih (Map.insertEntry acc k v)
      (entriesOriginsAll_insertEntry uri acc k v hacc hl.1) hl.2

theorem entriesOriginsAll_fromList (uri : Option String) (l : List (String × Value))
    (h : entriesOriginsAll uri l = true) :
    entriesOriginsAll uri (Map.fromList l) = true :=
  entriesOriginsAll_insertList uri l [] (by simp [entriesOriginsAll]) h

mutual
theorem originsAll_from_parsed (uri : Option String) (pv : ParsedValue) :
    Value.originsAll uri (from_parsed_value uri pv) = true := by
  match pv with
  | ParsedValue.Nil => simp [from_parsed_value, Value.new, Value.originsAll, kindOriginsAll]
  | ParsedValue.String s => simp [from_parsed_value, Value.new, Value.originsAll, kindOriginsAll]
  | ParsedValue.I64 n => simp [from_parsed_value, Value.new, Value.originsAll, kindOriginsAll]
  | ParsedValue.I128 n => simp [from_parsed_value, Value.new, Value.originsAll, kindOriginsAll]
  | ParsedValue.U64 n => simp [from_parsed_value, Value.new, Value.originsAll, kindOriginsAll]
  | ParsedValue.U128 n => simp [from_parsed_value, Value.new, Value.originsAll, kindOriginsAll]
  | ParsedValue.Float x => simp [from_parsed_value, Value.new, Value.originsAll, kindOriginsAll]
  | ParsedValue.Boolean b => simp [from_parsed_value, Value.new, Value.originsAll, kindOriginsAll]
  | ParsedValue.Table t =>
    have h := originsAll_fromParsedEntries uri t
    simp [from_parsed_value, Value.new, Value.originsAll, kindOriginsAll]
    exact entriesOriginsAll_fromList uri (fromParsedEntries uri t) h
  | ParsedValue.Array xs =>
    have h := originsAll_fromParsedList uri xs
    simp [from_parsed_value, Value.new, Value.originsAll, kindOriginsAll]
    exact h
  | ParsedValue.Option Option.none =>
    simp [from_parsed_value, Value.new, Value.originsAll, kindOriginsAll]
  | ParsedValue.Option (Option.some boxed) =>
    have h := originsAll_from_parsed uri boxed
    cases hw : from_parsed_value uri boxed with
    | mk o2 k2 =>
      rw [hw] at h
      simp [Value.originsAll] at h
      simp [from_parsed_value, Value.new, Value.originsAll, hw, Value.kind, h.2]
termination_by sizeOf pv

theorem originsAll_fromParsedEntries (uri : Option String) (t : List (String × ParsedValue)) :
    entriesOriginsAll uri (fromParsedEntries uri t) = true := by
  match t with
  | [] => simp [fromParsedEntries, entriesOriginsAll]
  | (k, v) :: rest =>
    have h1 := originsAll_from_parsed uri v
    have h2 := originsAll_fromParsedEntries uri rest
    simp [fromParsedEntries, entriesOriginsAll, h1, h2]
termination_by sizeOf t

theorem originsAll_fromParsedList (uri : Option String) (xs : List ParsedValue) :
    listOriginsAll uri (fromParsedList uri xs) = true := by
  match xs with
  | [] => simp [fromParsedList, listOriginsAll]
  | v :: rest =>
    have h1 := originsAll_from_parsed uri v
    have h2 := originsAll_fromParsedList uri rest
    simp [fromParsedList, listOriginsAll, h1, h2]
termination_by sizeOf xs
end

/-- C5: every node of the tree produced by `from_parsed_value uri v`
carries exactly the origin `uri`; in particular with no origin label,
every node's origin is absent. -/
theorem from_parsed_value_origin_propagation (uri : Option String) (v : ParsedValue) :
    Value.originsAll uri (from_parsed_value uri v) = true :=
  originsAll_from_parsed uri v

mutual
theorem roundtrip_value (uri : Option String) (v : Value)
    (ho : Value.originsAll uri v = true) (hn : Value.tablesNodup v = true) :
    from_parsed_value uri (ValueKind.toParsed (Value.kind v)) = v := by
  match v with
  | Value.mk o k =>
    simp [Value.originsAll] at ho
    simp [Value.tablesNodup] at hn
    obtain ⟨ho1, ho2⟩ := ho
    subst ho1
    cases k with
    | Nil => simp [ValueKind.toParsed, from_parsed_value, Value.new, Value.kind]
    | Boolean b => simp [ValueKind.toParsed, from_parsed_value, Value.new, Value.kind]
    | I64 n => simp [ValueKind.toParsed, from_parsed_value, Value.new, Value.kind]
    | I128 n => simp [ValueKind.toParsed, from_parsed_value, Value.new, Value.kind]
    | U64 n => simp [ValueKind.toParsed, from_parsed_value, Value.new, Value.kind]
    | U128 n => simp [ValueKind.toParsed, from_parsed_value, Value.new, Value.kind]
    | Float x => simp [ValueKind.toParsed, from_parsed_value, Value.new, Value.kind]
    | String s => simp [ValueKind.toParsed, from_parsed_value, Value.new, Value.kind]
    | Table m =>
      simp [kindOriginsAll] at ho2
      simp [kindTablesNodup] at hn
      have hb := roundtrip_entries o m ho2 hn.2
      simp [ValueKind.toParsed, from_parsed_value, Value.new, Value.kind, hb,
            Map.fromList_of_nodup m hn.1]
    | Array xs =>
      simp [kindOriginsAll] at ho2
      simp [kindTablesNodup] at hn
      have hc := roundtrip_list o xs ho2 hn
      simp [ValueKind.toParsed, from_parsed_value, Value.new, Value.kind, hc]
termination_by sizeOf v

theorem roundtrip_entries (uri : Option String) (m : List (String × Value))
    (ho : entriesOriginsAll uri m = true) (hn : entriesTablesNodup m = true) :
    fromParsedEntries uri (entriesToParsed m) = m := by
  match m with
  | [] => simp [entriesToParsed, fromParsedEntries]
  | (k1, Value.mk o1 kd1) :: rest =>
    simp [entriesOriginsAll] at ho
    simp [entriesTablesNodup] at hn
    have h1 := roundtrip_value uri (Value.mk o1 kd1) ho.1 hn.1
    have h2 := roundtrip_entries uri rest ho.2 hn.2
    simp [Value.kind] at h1
    simp [entriesToParsed, fromParsedEntries, h1, h2]
termination_by sizeOf m

theorem roundtrip_list (uri : Option String) (xs : List Value)
    (ho : listOriginsAll uri xs = true) (hn : listTablesNodup xs = true) :
    fromParsedList uri (listToParsed xs) = xs := by
  match xs with
  | [] => simp [listToParsed, fromParsedList]
  | Value.mk o1 kd1 :: rest =>
    simp [listOriginsAll] at ho
    simp [listTablesNodup] at hn
    have h1 := roundtrip_value uri (Value.mk o1 kd1) ho.1 hn.1
    have h2 := roundtrip_list uri rest ho.2 hn.2
    simp [Value.kind] at h1
    simp [listToParsed, fromParsedList, h1, h2]
termination_by sizeOf xs
end

/-- C8: normalization is idempotent on canonical data — re-encoding a
`Value` tree's underlying data through the intermediate `ParsedValue`
model and running `from_parsed_value` again with the same origin yields a
structurally identical tree (same kinds, same table key order, same
origin), for every tree whose nodes all carry that origin and whose
tables have unique keys (the shape produced by one parse call). -/
theorem from_parsed_value_idempotent (uri : Option String) (v : Value)
    (ho : Value.originsAll uri v = true) (hn : Value.tablesNodup v = true) :
    from_parsed_value uri (ValueKind.toParsed (Value.kind v)) = v :=
  roundtrip_value uri v ho hn

/-- Witness for C8 at a concrete canonical tree. -/
theorem from_parsed_value_idempotent_witness :
    Value.originsAll (Option.some "f")
      (Value.mk (Option.some "f")
        (ValueKind.Table [("a", Value.mk (Option.some "f") (ValueKind.I64 1))])) = true
  ∧ from_parsed_value (Option.some "f")
      (ValueKind.toParsed (Value.kind
        (Value.mk (Option.some "f")
          (ValueKind.Table [("a", Value.mk (Option.some "f") (ValueKind.I64 1))]))))
      = Value.mk (Option.some "f")
          (ValueKind.Table [("a", Value.mk (Option.some "f") (ValueKind.I64 1))]) :=
  ⟨by simp [Value.originsAll, kindOriginsAll, entriesOriginsAll],
   from_parsed_value_idempotent (Option.some "f")
     (Value.mk (Option.some "f")
       (ValueKind.Table [("a", Value.mk (Option.some "f") (ValueKind.I64 1))]))
     (by simp [Value.originsAll, kindOriginsAll, entriesOriginsAll])
     (by simp [Value.tablesNodup, kindTablesNodup, entriesTablesNodup,
               Map.keysNodup, Map.keyMem])⟩



/-- C9 counterexample: a valid-UTF-8 byte buffer is accepted by the
string probe — serde's String arm reads it as its decoded string — even
though it is none of the three claimed cases (literal string, single
character, date/time); the claimed three-case resolution rejects it. -/
theorem parsed_string_probe_counterexample :
    deserialize_parsed_string ⟨true, true⟩ (Content.bytesC [104, 105]) = Except.ok "hi"
  ∧ stringProbeSpec ⟨true, true⟩ (Content.bytesC [104, 105]) = Except.error DeError.invalidType := by
  constructor
  · simp [deserialize_parsed_string, parsedStringProbe,
          show utf8Decode [104, 105] = Option.some "hi" from by decide]
  · rfl

/-- C9 (amended): the secondary string probe resolves in the fixed
order — a literal string succeeds as-is, and so does a valid-UTF-8 byte
buffer via its decoded string (both are read by the String arm); else a
single character succeeds, promoted to the one-character string
containing it; else, only when the date/time capability is compiled in,
a native date/time value succeeds, promoted to its canonical text
rendering; if none of these match, the probe fails. -/
theorem parsed_string_probe_fixed_order (ft : Features) (c : Content) :
    deserialize_parsed_string ft c = stringProbeSpecBytes ft c := by
  cases c with
  | bytesC bs =>
    cases hdec : utf8Decode bs <;>
      simp [deserialize_parsed_string, parsedStringProbe, stringProbeSpecBytes, hdec]
  | datetimeC t =>
    cases htoml : ft.toml <;>
      simp [deserialize_parsed_string, parsedStringProbe, stringProbeSpecBytes, htoml]
  | _ => simp [deserialize_parsed_string, parsedStringProbe, stringProbeSpecBytes]

/-- C10: the native-mapping re-keying performs no duplicate detection
after key stringification — a mapping with the numeric key `42` and the
distinct string key `"42"` collides to the single key `"42"`, one of the
two values is silently discarded (later wins), and no error is raised. -/
theorem rekey_collision_discards_silently :
    deserialize_parsed_map 1 ⟨true, true⟩
      (Content.mapC [(Content.i64C 42, Content.boolC true), (Content.strC "42", Content.boolC false)])
      = Option.some (Except.ok [("42", ParsedValue.Boolean false)]) := by
  simp [deserialize_parsed_map, tableArm, Content.isStrC, contentPairsYamlish, Content.yamlish,
        rekeyPairs, Content.yamlKeyText, parsedValueFromContent, tryBoolean, Except.map,
        Map.fromList, Map.insertList, Map.insertEntry,
        show toString (42 : Int) = "42" from by decide]
